import Mathlib

/-!
Verification of the ragbot101 RAG pipeline core against its specification.

The development shallowly embeds the Python services:
  * `app/services/ingestion.py`   — text cleaning, chunking, section headers,
    and the embed-and-store loop of `process_file`;
  * `app/services/query_service.py` — retrieval, similarity scoring, prompt
    assembly and the canned no-context answer;
  * `app/services/vector_store.py`  — the distance-to-similarity conversion;
  * `app/services/llm_service.py`   — the generation fallback chain.

Text is modelled as `List Char` (named `Str`) so that every operation is a
plain structurally recursive function that the kernel can evaluate.
Python string primitives (`split`, `strip`, `find`, slicing, `re.sub` for the
three fixed patterns of `_clean_text`) are given faithful char-list
implementations.  Numeric scores use `ℚ`; the Python `round(x, 4)` operation is modelled
as rounding `x * 10^4` to the nearest integer (the half-to-even tie rule of
Python differs from the Mathlib `round` only at exact ties, which no statement
below touches).
-/

namespace Ragbot

/-- Text, modelled as a list of characters. -/
abbrev Str := List Char

/-- The Python whitespace class `\s` (ASCII part): space, tab, newline,
carriage return, vertical tab, form feed. -/
def pyWs (c : Char) : Bool :=
  c = ' ' || c = '\t' || c = '\n' || c = '\r' || c = '\x0b' || c = '\x0c'

/-- Python `strip`: remove leading and trailing whitespace. -/
def pyStrip (s : Str) : Str :=
  ((s.dropWhile pyWs).reverse.dropWhile pyWs).reverse

/-- Helper for the splitters: prepend a character to the first piece of a
split result. -/
def consHead (c : Char) : List Str → List Str
  | [] => [[c]]
  | t :: ts => (c :: t) :: ts

/-- Python `text.split("\n\n")`: split on non-overlapping occurrences of a
double newline, scanning left to right. -/
def splitNlNl : Str → List Str
  | '\n' :: '\n' :: rest => [] :: splitNlNl rest
  | c :: rest => consHead c (splitNlNl rest)
  | [] => [[]]

/-- Python `text.split(". ")`: split on non-overlapping occurrences of a
period followed by a space, scanning left to right. -/
def splitDotSpace : Str → List Str
  | '.' :: ' ' :: rest => [] :: splitDotSpace rest
  | c :: rest => consHead c (splitDotSpace rest)
  | [] => [[]]

/-- Python `text.split("\n")`. -/
def splitNl : Str → List Str
  | '\n' :: rest => [] :: splitNl rest
  | c :: rest => consHead c (splitNl rest)
  | [] => [[]]

/-- The separator `". "` used by `split_text` in `_chunk_text`. -/
def dotSpace : Str := ['.', ' ']

/-- Python `replace` of a carriage return by a newline, applied character-wise. -/
def replCR (c : Char) : Char := if c = '\r' then '\n' else c

/-! ### `IngestionService._clean_text` -/

/-- First step of `_clean_text`: `re.sub` on the pattern `-` followed by a newline, replaced by nothing: removes every
(non-overlapping, left-to-right) occurrence of a hyphen followed by a
newline. -/
def removeHyphenNL : Str → Str
  | '-' :: '\n' :: rest => removeHyphenNL rest
  | c :: rest => c :: removeHyphenNL rest
  | [] => []

/-- Worker for `collapseWs`.  The flag records whether the previous input
character was whitespace, so that each maximal whitespace run emits exactly
one space. -/
def collapseWsGo : Bool → Str → Str
  | _, [] => []
  | inRun, c :: rest =>
    if pyWs c then
      if inRun then collapseWsGo true rest
      else ' ' :: collapseWsGo true rest
    else c :: collapseWsGo false rest

/-- Second step of `_clean_text`: `re.sub` replacing every maximal whitespace run by a single space:
only one space is emitted per run. -/
def collapseWs (s : Str) : Str := collapseWsGo false s

/-- Worker for `digitFix`, structurally recursive on a fuel argument that is
initialised to more than the input length (each step consumes at least one
character, so the fuel is never exhausted). -/
def digitFixGo : Nat → Str → Str
  | 0, s => s
  | _ + 1, [] => []
  | fuel + 1, c :: rest =>
    if c.isDigit then
      let ds := (c :: rest).takeWhile Char.isDigit
      let r1 := (c :: rest).dropWhile Char.isDigit
      let ws := r1.takeWhile pyWs
      let r2 := r1.dropWhile pyWs
      if ws ≠ [] ∧ r2.head? = some '.' then ds ++ '.' :: digitFixGo fuel r2.tail
      else ds ++ digitFixGo fuel r1
    else c :: digitFixGo fuel rest

/-- Third step of `_clean_text`: `re.sub` replacing a digit run, whitespace and a period by the digit run and the period: deletes
the whitespace between a digit run and a following period.  A regex match must
begin with a digit and, starting anywhere inside a digit run, succeeds exactly
when the maximal digit run is followed by at least one whitespace character
and then a period, so scanning by whole digit runs is faithful to `re.sub`. -/
def digitFix (s : Str) : Str := digitFixGo (s.length + 1) s

/-- Model of `IngestionService._clean_text`: hyphenated-line-break repair, whitespace
collapsing, numbered-header repair, then `strip()`. -/
def clean_text (text : Str) : Str :=
  pyStrip (digitFix (collapseWs (removeHyphenNL text)))

/-! ### `IngestionService._chunk_text` -/

/-- The merge loop of the inner `split_text` helper of `_chunk_text`: greedily
re-merge the pieces of a split, re-attaching the separator to every piece
(`to_add = s + separator`), starting a new accumulator whenever adding the
next piece would exceed `target`.  The accumulator is flushed when non-empty,
exactly as in the Python loop. -/
def mergeSplits (target : Nat) (sep : Str) : List Str → Str → List Str
  | [], cur => if cur = [] then [] else [cur]
  | s :: rest, cur =>
    let toAdd := s ++ sep
    if cur.length + toAdd.length ≤ target then
      mergeSplits target sep rest (cur ++ toAdd)
    else if cur = [] then
      mergeSplits target sep rest toAdd
    else
      cur :: mergeSplits target sep rest toAdd

/-- The inner `split_text(para, [". ", " "])` helper of `_chunk_text`.  The
source selects `separator = separators[0]` (here always `". "`), splits on it,
re-merges, and returns without ever making a recursive call (the comment
about recursing is dead code), so the `" "` separator is never used. -/
def split_text (target : Nat) (text : Str) : List Str :=
  mergeSplits target dotSpace (splitDotSpace text) []

/-- The paragraph loop of `_chunk_text`: strip each paragraph, skip empty
ones, greedily accumulate under `len(current) + len(para) + 2 <= target`
(joining with a double newline), otherwise flush the current chunk and either
sub-split an oversized paragraph (keeping the last sub-chunk as the next
seed) or seed with the paragraph itself; finally flush the remainder. -/
def paraLoop (target : Nat) : List Str → Str → List Str
  | [], cur => if cur = [] then [] else [cur]
  | p :: rest, cur =>
    let para := pyStrip p
    if para = [] then paraLoop target rest cur
    else if cur.length + para.length + 2 ≤ target then
      paraLoop target rest (if cur = [] then para else cur ++ '\n' :: '\n' :: para)
    else
      (if cur = [] then [] else [cur]) ++
        (if target < para.length then
          (split_text target para).dropLast ++
            paraLoop target rest ((split_text target para).getLastD [])
        else
          paraLoop target rest para)

/-- The chunk list of `_chunk_text` before overlap is applied: split the
`'\r'`-normalised text on double newlines and run the paragraph loop with an
empty current chunk. -/
def preChunks (text : Str) (target : Nat) : List Str :=
  paraLoop target (splitNlNl (text.map replCR)) []

/-- The overlap text prepended to a chunk: the trailing `overlap` characters
of the previous original chunk (`prev[-overlap:]`, for `overlap > 0`),
trimmed past the first space when one occurs (`find(" ")`). -/
def overlapPiece (overlap : Nat) (prev : Str) : Str :=
  let t := prev.drop (prev.length - overlap)
  match t.findIdx? (· = ' ') with
  | some i => t.drop (i + 1)
  | none => t

/-- The overlap pass of `_chunk_text`: chunk `0` is kept unchanged and every
later chunk `i` becomes `overlapPiece overlap chunks[i-1] ++ " " ++ chunks[i]`,
where `chunks` is the pre-overlap list. -/
def applyOverlap (overlap : Nat) : List Str → List Str
  | [] => []
  | c :: rest =>
    c :: (rest.zip (c :: rest)).map (fun p => overlapPiece overlap p.2 ++ ' ' :: p.1)

/-- Model of `IngestionService._chunk_text`: empty text yields no chunks; otherwise
build the pre-overlap chunks and, when `overlap > 0` and there is more than
one chunk, apply the overlap pass. -/
def chunk_text (text : Str) (target overlap : Nat) : List Str :=
  if text = [] then []
  else
    let chunks := preChunks text target
    if 0 < overlap ∧ 1 < chunks.length then applyOverlap overlap chunks
    else chunks

/-! ### `IngestionService._extract_section_header` -/

/-- ASCII model of a Python "cased character": an upper- or lower-case
letter. -/
def isCased (c : Char) : Bool := c.isLower || c.isUpper

/-- ASCII model of Python `str.isupper()`: at least one cased character and
no lower-case character. -/
def pyIsUpper (s : Str) : Bool := s.any isCased && s.all (fun c => !c.isLower)

/-- One header-matching step of `_extract_section_header` on an already
stripped, non-empty line: numbered section (`line[0].isdigit() and "." in
line[:5]`), all-caps header (`line.isupper() and len(line) > 3`), or markdown
header (`line.startswith("#")`). -/
def headerMatches (c : Char) (line : Str) : Bool :=
  (c.isDigit && ('.' ∈ line.take 5 : Bool)) ||
    (pyIsUpper line && decide (3 < line.length)) ||
    c = '#'

/-- The loop of `_extract_section_header` over the first two lines.  `none`
models the `IndexError` raised by `line[0]` when a stripped line is empty
(the guard `len(line) < 100` is true for the empty line, so `line[0]` is
always evaluated).  Falling off the loop returns `"unknown"`. -/
def headerGo : List Str → Option Str
  | [] => some "unknown".toList
  | l :: rest =>
    let line := pyStrip l
    if line.length < 100 then
      match line with
      | [] => none
      | c :: cs =>
        if headerMatches c (c :: cs) then
          some (pyStrip ((c :: cs).dropWhile (· = '#')))
        else headerGo rest
    else headerGo rest

/-- Model of `IngestionService._extract_section_header`: split on newlines, inspect
the first two lines; `none` models the uncaught `IndexError` on an empty
stripped line. -/
def extract_section_header (text : Str) : Option Str :=
  headerGo ((splitNl text).take 2)

/-! ### `ChromaVectorStore.query` and `QueryService._retrieve_chunks`
similarity formulas -/

/-- Conversion applied by the vector-store layer in `ChromaVectorStore.query`:
`similarity = 1 - distance` (cosine metric, no clamping). -/
def storeSimilarity (d : ℚ) : ℚ := 1 - d

/-- Conversion applied by the query pipeline in `QueryService._retrieve_chunks`:
`similarity = 1.0 / (1.0 + distance)` (the code comment claims L2 distance,
although the collection is configured with the cosine metric). -/
def querySimilarity (d : ℚ) : ℚ := 1 / (1 + d)

/-- Python `round(x, 4)`: round `x * 10^4` to the nearest integer.  (Python
breaks exact ties half-to-even while the Mathlib `round` breaks them upward;
no value considered in this development is a tie.) -/
def pyRound4 (x : ℚ) : ℚ := (round (x * 10000) : ℤ) / 10000

/-! ### `QueryService` -/

/-- One retrieved chunk as exposed to callers (`schemas.query.RetrievalChunk`). -/
structure RetrievalChunk where
  text : String
  source : String
  similarity_score : ℚ
deriving DecidableEq, Repr

/-- Result type of the query pipeline (`schemas.query.QueryData`). -/
structure QueryData where
  answer : String
  retrieved_chunks : List RetrievalChunk
deriving DecidableEq, Repr

/-- Lookup `meta = metadatas[i] if i < len(metadatas) else {}` followed by
`meta.get("source", "unknown")`.  Each metadata dict is modelled by its
optional `source` field. -/
def sourceAt (metas : List (Option String)) (i : Nat) : String :=
  match metas[i]? with
  | some (some s) => s
  | _ => "unknown"

/-- Distance lookup of `_retrieve_chunks`: `distances[i]` when `i` is in
range, else the infinity placeholder, which yields similarity `0`; otherwise
`similarity = 1.0 / (1.0 + distance)`.  A missing distance stands for the
infinity placeholder. -/
def similarityAt (dists : List ℚ) (i : Nat) : ℚ :=
  match dists[i]? with
  | some d => querySimilarity d
  | none => 0

/-- One context block: `f"Source: {source}\nContent: {doc_text}"`. -/
def contextBlock (source doc : String) : String :=
  "Source: " ++ source ++ "\nContent: " ++ doc

/-- The `for i, doc_text in enumerate(documents)` loop of
`_retrieve_chunks`, accumulating the retrieved chunks (with similarity
rounded to four decimal places) and the context blocks in order. -/
def retrieveLoop (metas : List (Option String)) (dists : List ℚ) :
    List String → Nat → List RetrievalChunk × List String
  | [], _ => ([], [])
  | doc :: rest, i =>
    let src := sourceAt metas i
    let sim := pyRound4 (similarityAt dists i)
    let tl := retrieveLoop metas dists rest (i + 1)
    (⟨doc, src, sim⟩ :: tl.1, contextBlock src doc :: tl.2)

/-- Model of `QueryService._retrieve_chunks`, given the response lists of the store
(documents, per-item `source` metadata, distances): returns the retrieved
chunks and the context parts. -/
def retrieve_chunks (docs : List String) (metas : List (Option String))
    (dists : List ℚ) : List RetrievalChunk × List String :=
  retrieveLoop metas dists docs 0

/-- The canned insufficient-information answer of `process_query`. -/
def insufficientMsg : String :=
  "I don\x27t have enough information to answer this question. Please upload relevant documents first."

/-- Model of `QueryService._build_rag_prompt`: the fixed f-string template around the
context and the literal question. -/
def build_rag_prompt (context question : String) : String :=
  "Answer the user question based on the following context. If the answer is not in the context, say you don\x27t know.\n\nContext:\n"
    ++ context ++ "\n\nQuestion: " ++ question ++ "\n\nAnswer:"

/-- Model of `QueryService.process_query`, given the store response and the generation
client as an oracle `gen`.  The boolean records whether the generation client
was invoked.  When `context_parts` is empty the canned answer is returned
with no retrieved chunks and no generation call; otherwise the context parts
are joined with blank lines, the prompt is built and `gen` is called. -/
def process_query (docs : List String) (metas : List (Option String))
    (dists : List ℚ) (gen : String → String) (question : String) :
    QueryData × Bool :=
  let rc := retrieve_chunks docs metas dists
  if rc.2 = [] then ({ answer := insufficientMsg, retrieved_chunks := [] }, false)
  else
    ({ answer := gen (build_rag_prompt (String.intercalate "\n\n" rc.2) question),
       retrieved_chunks := rc.1 }, true)

/-! ### `LLMService.generate_answer` -/

/-- The `for idx, model in enumerate(models_to_try)` loop of
`generate_answer`: each list element is the outcome of one attempt; state is
`last_error` and the number of failures recorded so far.  An exhausted list
raises with the last error (`none` when no model was tried). -/
def genGo {ε α : Type} : List (Except ε α) → Option ε → Nat →
    Except (Option ε) (α × Nat)
  | [], lastErr, _ => .error lastErr
  | .ok a :: _, _, fails => .ok (a, fails)
  | .error e :: rest, _, fails => genGo rest (some e) (fails + 1)

/-- Model of `LLMService.generate_answer`, given the per-candidate outcomes in model
order (`[primary] + fallback_models`): returns the first success together
with the number of failures recorded before it, or the last error when every
candidate fails. -/
def generate_answer {ε α : Type} (attempts : List (Except ε α)) :
    Except (Option ε) (α × Nat) :=
  genGo attempts none 0

/-! ### `IngestionService.process_file` (after text extraction) -/

/-- The embed-and-store loop of `process_file` over the chunk list: threads
the stateful `current_section` (updated whenever `_extract_section_header`
returns something other than `"unknown"`), collects embeddings (via the
oracle `embed`), ids `f"{doc.id}_{i}"` and the documents for the vector
store; `none` models the `IndexError` that `_extract_section_header` can
raise. -/
def ingestGo (embed : Str → List ℚ) (docId : String) :
    List Str → Nat → Str → Option (List (List ℚ) × List String × List Str)
  | [], _, _ => some ([], [], [])
  | chunk :: rest, i, cur =>
    match extract_section_header chunk with
    | none => none
    | some hdr =>
      let sec := if hdr ≠ "unknown".toList then hdr else cur
      match ingestGo embed docId rest (i + 1) sec with
      | none => none
      | some (embs, ids, docsAcc) =>
        some (embed chunk :: embs, (docId ++ "_" ++ toString i) :: ids,
          chunk :: docsAcc)

/-- The outcome of one `process_file` run: the recorded chunk count, the ids
and documents prepared for the vector store, and whether
`add_documents` was called (`if documents_for_vector_db:`). -/
structure IngestOutcome where
  chunk_count : Nat
  ids : List String
  documents_for_vector_db : List Str
  insertCalled : Bool
deriving DecidableEq, Repr

/-- Model of `IngestionService.process_file` from the extracted text onward: clean the
text, chunk it with the default `target_size=800, overlap=200`, run the
embed-and-store loop (initial section `"Introduction"`), and call the vector
store only when at least one document was prepared. -/
def process_file (embed : Str → List ℚ) (docId : String) (text : Str) :
    Option IngestOutcome :=
  let chunks := chunk_text (clean_text text) 800 200
  match ingestGo embed docId chunks 0 "Introduction".toList with
  | none => none
  | some (_, ids, docsAcc) =>
    some { chunk_count := chunks.length, ids := ids,
           documents_for_vector_db := docsAcc,
           insertCalled := !docsAcc.isEmpty }

/-- Property of a chunk that consists of a single piece of the `". "` split
with the separator re-attached: the splitter cannot divide it further (it
never recurses to the `" "` separator), so such a chunk may exceed the
target size. -/
def SentencePiece (c : Str) : Prop :=
  ∃ s, c = s ++ dotSpace ∧ ¬ dotSpace <:+: s

/-!
## Theorems

Helper lemmas first, then one theorem per claim (with counterexamples and
witnesses where the status requires them).
-/

section Lemmas

/-- The generation loop returns the first success, counting one recorded
failure per preceding candidate and ignoring everything after the success. -/
theorem genGo_ok {ε α : Type} (v : α) (rest : List (Except ε α)) :
    ∀ (pre : List ε) (le : Option ε) (n : Nat),
      genGo (pre.map .error ++ .ok v :: rest) le n = .ok (v, n + pre.length) := by
  intro pre
  induction pre with
  | nil => intro le n; simp [genGo]
  | cons e pre ih =>
    intro le n
    simpa [genGo, Nat.add_comm, Nat.add_assoc, Nat.add_left_comm] using
      ih (some e) (n + 1)

/-- The generation loop on an all-failure list raises the last error, falling
back to the incoming error when the list is empty. -/
theorem genGo_all_errors {ε α : Type} :
    ∀ (errs : List ε) (le : Option ε) (n : Nat),
      genGo (α := α) (errs.map .error) le n = .error (errs.getLast?.or le) := by
  intro errs
  induction errs with
  | nil => intro le n; simp [genGo]
  | cons e errs ih =>
    intro le n
    cases errs with
    | nil => simp [genGo]
    | cons e2 errs2 =>
      rw [List.map_cons, genGo, ih (some e) (n + 1), List.getLast?_cons_cons]
      have h : (e2 :: errs2).getLast?.isSome = true :=
        List.getLast?_isSome.mpr (by simp)
      cases hlast : (e2 :: errs2).getLast? with
      | none => rw [hlast] at h; simp at h
      | some x => simp [Option.or]

end Lemmas

/-- Claim C5: the generation client attempts its candidate models strictly in
list order, one attempt per candidate, and returns the first success
immediately; with failing candidates `pre` preceding a success `v`, the
result is `v` with exactly `pre.length` failures recorded (in particular two
failures when `pre = [A, B]` and `C` succeeds); when every candidate fails,
the all-models-failed error carries the last underlying error. -/
theorem c5_thm {ε α : Type} :
    (∀ (pre : List ε) (v : α) (rest : List (Except ε α)),
        generate_answer (pre.map .error ++ .ok v :: rest) = .ok (v, pre.length)) ∧
    ∀ errs : List ε,
        generate_answer (errs.map .error : List (Except ε α)) =
          .error errs.getLast? := by
  constructor
  · intro pre v rest
    simpa using genGo_ok v rest pre none 0
  · intro errs
    rw [generate_answer, genGo_all_errors errs none 0, Option.or_none]

/-- Claim C6: when retrieval returns zero results, the query pipeline answers
with the fixed insufficient-information message, an empty retrieved sequence,
and no call to the generation client (the boolean component records whether
the generation oracle was invoked). -/
theorem c6_thm :
    ∀ (metas : List (Option String)) (dists : List ℚ)
      (gen : String → String) (question : String),
      process_query [] metas dists gen question =
        ({ answer := insufficientMsg, retrieved_chunks := [] }, false) := by
  intro metas dists gen question
  rfl

/-- Claim C2 (code bug): at cosine distance `0.2` the query pipeline computes
similarity `1 / (1 + 0.2) = 5/6 ≈ 0.8333`, not the `1 - 0.2 = 0.8` required
by the documented cosine normalization; the vector-store layer itself
computes `0.8`, so the two layers disagree, and the `RetrievalResult` built
for a single chunk retrieved at distance `0.2` carries `0.8333`. -/
theorem c2_code_eval :
    querySimilarity (1/5) = 5/6 ∧
    querySimilarity (1/5) ≠ storeSimilarity (1/5) ∧
    storeSimilarity (1/5) = 4/5 ∧
    pyRound4 (querySimilarity (1/5)) = 8333/10000 ∧
    (retrieve_chunks ["chunk text"] [some "doc.pdf"] [1/5]).1 =
      [{ text := "chunk text", source := "doc.pdf", similarity_score := 8333/10000 }] := by
  have hq : querySimilarity (1/5) = 5/6 := by
    unfold querySimilarity; norm_num
  have hr : pyRound4 (querySimilarity (1/5)) = 8333/10000 := by
    rw [hq]
    unfold pyRound4
    have : round ((5 : ℚ)/6 * 10000) = 8333 := by
      rw [round_eq]
      rw [show (5 : ℚ)/6 * 10000 + 1/2 = 50003/6 by norm_num]
      rw [Int.floor_eq_iff]
      constructor <;> norm_num
    rw [this]
    norm_num
  refine ⟨hq, ?_, by unfold storeSimilarity; norm_num, hr, ?_⟩
  · rw [hq]; unfold storeSimilarity; norm_num
  · have hsim : pyRound4 (similarityAt [(1:ℚ)/5] 0) = 8333/10000 := hr
    simp only [retrieve_chunks, retrieveLoop]
    rw [hsim]
    rfl

/-- Claim C8 counterexample: the vector-store normalization `1 - d` is not
clamped, so the cosine distance `2` (opposite vectors, inside the documented
domain `[0, 2]`) yields similarity `-1`, outside `[0, 1]`. -/
theorem c8_counterexample :
    storeSimilarity 2 = -1 ∧ ¬ (0 ≤ storeSimilarity 2 ∧ storeSimilarity 2 ≤ 1) := by
  unfold storeSimilarity; norm_num

/-- Claim C8 as amended: both similarity normalizations are strictly monotone
decreasing in the distance; the query-pipeline value `1 / (1 + d)` lies in
`[0, 1]` for every distance `d ≥ 0`, while the vector-store value `1 - d`
lies in `[0, 1]` only on the sub-domain `d ∈ [0, 1]` (no clamping is
applied, so distances in `(1, 2]` produce negative similarities). -/
theorem c8_amended_thm :
    (∀ d1 d2 : ℚ, 0 ≤ d1 → d1 < d2 →
        querySimilarity d2 < querySimilarity d1 ∧
        storeSimilarity d2 < storeSimilarity d1) ∧
    (∀ d : ℚ, 0 ≤ d → 0 < querySimilarity d ∧ querySimilarity d ≤ 1) ∧
    ∀ d : ℚ, 0 ≤ d → d ≤ 1 → 0 ≤ storeSimilarity d ∧ storeSimilarity d ≤ 1 := by
  refine ⟨fun d1 d2 h1 h12 => ⟨?_, ?_⟩, fun d hd => ⟨?_, ?_⟩, fun d hd hd1 => ⟨?_, ?_⟩⟩
  · unfold querySimilarity
    rw [div_lt_div_iff₀ (by linarith) (by linarith)]
    linarith
  · unfold storeSimilarity; linarith
  · unfold querySimilarity
    exact div_pos one_pos (by linarith)
  · unfold querySimilarity
    rw [div_le_one (by linarith)]
    linarith
  · unfold storeSimilarity; linarith
  · unfold storeSimilarity; linarith

/-- Witness for C8: the amended theorem applied at the concrete distances
`0`, `1` and `2/3`. -/
theorem c8_witness :
    (querySimilarity 1 < querySimilarity 0 ∧
      storeSimilarity 1 < storeSimilarity 0) ∧
    (0 < querySimilarity (2/3) ∧ querySimilarity (2/3) ≤ 1) ∧
    (0 ≤ storeSimilarity (2/3) ∧ storeSimilarity (2/3) ≤ 1) :=
  ⟨c8_amended_thm.1 0 1 (by norm_num) (by norm_num),
   c8_amended_thm.2.1 (2/3) (by norm_num),
   c8_amended_thm.2.2 (2/3) (by norm_num) (by norm_num)⟩

/-- Claim C9: chunking the empty string returns the empty chunk sequence for
every target size and overlap, and a `process_file` run whose text yields
zero chunks produces zero vectors, never calls the vector store, and is not
an error. -/
theorem c9_thm :
    (∀ target overlap : Nat, chunk_text [] target overlap = []) ∧
    ∀ (embed : Str → List ℚ) (docId : String) (text : Str),
      chunk_text (clean_text text) 800 200 = [] →
      process_file embed docId text =
        some { chunk_count := 0, ids := [], documents_for_vector_db := [],
               insertCalled := false } := by
  constructor
  · intro target overlap
    simp [chunk_text]
  · intro embed docId text h
    unfold process_file
    rw [h]
    rfl

/-- Witness for C9: a run of `process_file` on the empty text, which yields
zero chunks. -/
theorem c9_witness :
    process_file (fun _ => []) "doc1" [] =
      some { chunk_count := 0, ids := [], documents_for_vector_db := [],
             insertCalled := false } :=
  c9_thm.2 (fun _ => []) "doc1" [] (by decide)

/-- The header loop returns a value (raises no exception) when every line it
may inspect is non-empty after stripping. -/
theorem headerGo_isSome (ls : List Str) (h : ∀ l ∈ ls, pyStrip l ≠ []) :
    (headerGo ls).isSome = true := by
  induction ls with
  | nil => rfl
  | cons l rest ih =>
    have hl := h l (by simp)
    have hrest : ∀ x ∈ rest, pyStrip x ≠ [] := fun x hx => h x (by simp [hx])
    simp only [headerGo]
    cases hstrip : pyStrip l with
    | nil => exact absurd hstrip hl
    | cons c cs =>
      by_cases h100 : (c :: cs).length < 100
      · simp only [if_pos h100]
        by_cases hm : headerMatches c (c :: cs)
        · simp [hm]
        · simp only [hm, if_neg, Bool.false_eq_true]
          exact ih hrest
      · simp only [if_neg h100]
        exact ih hrest

/-- When the header loop raises, some inspected line was empty after
stripping. -/
theorem headerGo_none (ls : List Str) (h : headerGo ls = none) :
    ∃ l, l ∈ ls ∧ pyStrip l = [] := by
  induction ls with
  | nil => simp [headerGo] at h
  | cons l rest ih =>
    simp only [headerGo] at h
    cases hstrip : pyStrip l with
    | nil => exact ⟨l, by simp, hstrip⟩
    | cons c cs =>
      rw [hstrip] at h
      by_cases h100 : (c :: cs).length < 100
      · rw [if_pos h100] at h
        by_cases hm : headerMatches c (c :: cs)
        · simp [hm] at h
        · simp only [hm, Bool.false_eq_true, if_neg] at h
          obtain ⟨x, hx, hxs⟩ := ih h
          exact ⟨x, by simp [hx], hxs⟩
      · rw [if_neg h100] at h
        obtain ⟨x, hx, hxs⟩ := ih h
        exact ⟨x, by simp [hx], hxs⟩

/-- Hyphenated-line-break removal only deletes characters: every output
character occurs in the input. -/
theorem removeHyphenNL_mem : ∀ s : Str, ∀ c ∈ removeHyphenNL s, c ∈ s := by
  intro s
  induction s using removeHyphenNL.induct with
  | case1 rest ih =>
    intro c hc
    rw [removeHyphenNL.eq_1] at hc
    simp [ih c hc]
  | case2 x rest h ih =>
    intro c hc
    rw [removeHyphenNL.eq_2 _ _ h] at hc
    rcases List.mem_cons.mp hc with h1 | h1
    · simp [h1]
    · simp [ih c h1]
  | case3 => simp [removeHyphenNL]

/-- Whitespace collapsing emits only spaces and non-whitespace input
characters. -/
theorem collapseWsGo_mem :
    ∀ (s : Str) (b : Bool), ∀ c ∈ collapseWsGo b s, c = ' ' ∨ pyWs c = false := by
  intro s
  induction s with
  | nil => intro b c hc; simp [collapseWsGo] at hc
  | cons x rest ih =>
    intro b c hc
    simp only [collapseWsGo] at hc
    by_cases hws : pyWs x
    · rw [if_pos hws] at hc
      cases b with
      | true => exact ih true c hc
      | false =>
        rcases List.mem_cons.mp hc with h1 | h1
        · exact Or.inl h1
        · exact ih true c h1
    · rw [if_neg hws] at hc
      rcases List.mem_cons.mp hc with h1 | h1
      · subst h1; exact Or.inr (Bool.not_eq_true _ ▸ hws)
      · exact ih false c h1

/-- The digit-period repair emits only input characters and periods. -/
theorem digitFixGo_mem :
    ∀ (fuel : Nat) (s : Str), ∀ c ∈ digitFixGo fuel s, c ∈ s ∨ c = '.' := by
  intro fuel
  induction fuel with
  | zero => intro s c hc; exact Or.inl hc
  | succ fuel ih =>
    intro s
    cases s with
    | nil => intro c hc; simp [digitFixGo] at hc
    | cons x rest =>
      intro c hc
      simp only [digitFixGo] at hc
      by_cases hd : x.isDigit
      · rw [if_pos hd] at hc
        set r1 := (x :: rest).dropWhile Char.isDigit with hr1
        by_cases hcond : r1.takeWhile pyWs ≠ [] ∧ (r1.dropWhile pyWs).head? = some '.'
        · rw [if_pos hcond] at hc
          rcases List.mem_append.mp hc with h1 | h1
          · exact Or.inl ((List.takeWhile_sublist _).mem h1)
          · rcases List.mem_cons.mp h1 with h2 | h2
            · exact Or.inr h2
            · rcases ih _ c h2 with h3 | h3
              · refine Or.inl ?_
                have : (r1.dropWhile pyWs).tail.Sublist (x :: rest) :=
                  ((List.tail_sublist _).trans (List.dropWhile_sublist _)).trans
                    (List.dropWhile_sublist _)
                exact this.mem h3
              · exact Or.inr h3
        · rw [if_neg hcond] at hc
          rcases List.mem_append.mp hc with h1 | h1
          · exact Or.inl ((List.takeWhile_sublist _).mem h1)
          · rcases ih _ c h1 with h3 | h3
            · exact Or.inl ((List.dropWhile_sublist _).mem h3)
            · exact Or.inr h3
      · rw [if_neg hd] at hc
        rcases List.mem_cons.mp hc with h1 | h1
        · exact Or.inl (by simp [h1])
        · rcases ih rest c h1 with h3 | h3
          · exact Or.inl (by simp [h3])
          · exact Or.inr h3

/-- Stripping only deletes characters. -/
theorem pyStrip_mem : ∀ s : Str, ∀ c ∈ pyStrip s, c ∈ s := by
  intro s c hc
  unfold pyStrip at hc
  rw [List.mem_reverse] at hc
  have h1 := (List.dropWhile_sublist pyWs).mem hc
  rw [List.mem_reverse] at h1
  exact (List.dropWhile_sublist pyWs).mem h1

/-- Every character of a cleaned text is a space, a period, or a
non-whitespace input character; in particular no newline and no carriage
return survives `_clean_text`. -/
theorem clean_text_no_newline :
    ∀ (text : Str), ∀ c ∈ clean_text text, c ≠ '\n' ∧ c ≠ '\r' := by
  intro text c hc
  unfold clean_text at hc
  have h1 := pyStrip_mem _ c hc
  rcases digitFixGo_mem _ _ c h1 with h2 | h2
  · rcases collapseWsGo_mem _ false c h2 with h3 | h3
    · subst h3; exact ⟨by decide, by decide⟩
    · constructor <;> rintro rfl <;> simp [pyWs] at h3
  · subst h2; exact ⟨by decide, by decide⟩

/-- A text without newlines has no double-newline boundary, so the paragraph
split of `_chunk_text` returns it whole. -/
theorem splitNlNl_no_newline :
    ∀ s : Str, '\n' ∉ s → splitNlNl s = [s] := by
  intro s
  induction s using splitNlNl.induct with
  | case1 rest ih =>
    intro h
    exact absurd (by simp : '\n' ∈ '\n' :: '\n' :: rest) h
  | case2 c rest h ih =>
    intro hn
    rw [splitNlNl.eq_2 _ _ h, ih (fun hmem => hn (by simp [hmem]))]
    rfl
  | case3 => intro _; rfl

/-- Mapping the carriage-return replacement over a text without carriage
returns is the identity. -/
theorem map_replCR_id : ∀ s : Str, '\r' ∉ s → s.map replCR = s := by
  intro s h
  have : ∀ c ∈ s, replCR c = c := by
    intro c hc
    unfold replCR
    rw [if_neg]
    rintro rfl
    exact h hc
  rw [List.map_congr_left this]
  exact List.map_id s

/-- Claim C3 counterexample: the extracted text `"a\n\nb"` contains a
double-newline paragraph boundary, but `_clean_text` collapses it to
`"a b"`, so the boundary is no longer present in the text the chunker
splits and the paragraph split returns a single paragraph. -/
theorem c3_counterexample :
    ('\n' :: '\n' :: []) <:+: ('a' :: '\n' :: '\n' :: 'b' :: []) ∧
    clean_text ('a' :: '\n' :: '\n' :: 'b' :: []) = ('a' :: ' ' :: 'b' :: []) ∧
    ¬ ('\n' :: '\n' :: []) <:+: clean_text ('a' :: '\n' :: '\n' :: 'b' :: []) ∧
    splitNlNl ((clean_text ('a' :: '\n' :: '\n' :: 'b' :: [])).map replCR) =
      [('a' :: ' ' :: 'b' :: [])] := by
  refine ⟨⟨['a'], ['b'], by decide⟩, by decide, ?_, by decide⟩
  decide

/-- Claim C3 as amended: whitespace collapsing runs before paragraph
splitting, so the cleaned text the ingestion pipeline hands to the chunker
never contains a newline (hence no `"\n\n"` boundary), and the paragraph
split of `_chunk_text` always yields the single-paragraph list. -/
theorem c3_amended_thm :
    ∀ text : Str,
      ((clean_text text).all fun c => (c != '\n') && (c != '\r')) = true ∧
      splitNlNl ((clean_text text).map replCR) = [clean_text text] := by
  intro text
  have hall : ∀ c ∈ clean_text text, c ≠ '\n' ∧ c ≠ '\r' :=
    clean_text_no_newline text
  constructor
  · rw [List.all_eq_true]
    intro c hc
    rcases hall c hc with ⟨h1, h2⟩
    simp [h1, h2]
  · have hnr : '\r' ∉ clean_text text := fun hmem => (hall _ hmem).2 rfl
    have hnn : '\n' ∉ clean_text text := fun hmem => (hall _ hmem).1 rfl
    rw [map_replCR_id _ hnr]
    exact splitNlNl_no_newline _ hnn

/-- Claim C10: the section-header helper is not total — on a text whose first
line is empty after stripping (for example one beginning with a newline) it
indexes position 0 of an empty string and raises (modelled as `none`); it
returns a label exactly when every line it actually inspects among the first
two is non-empty after stripping, which the last two conjuncts capture in
both directions. -/
theorem c10_thm :
    extract_section_header ('\n' :: 'a' :: 'b' :: 'c' :: []) = none ∧
    (∀ text : Str, (∀ l ∈ (splitNl text).take 2, pyStrip l ≠ []) →
        (extract_section_header text).isSome = true) ∧
    ∀ text : Str, extract_section_header text = none →
        ∃ l, l ∈ (splitNl text).take 2 ∧ pyStrip l = [] := by
  refine ⟨by decide, fun text h => headerGo_isSome _ h, fun text h => headerGo_none _ h⟩

/-- Witness for C10: the totality direction applied to a concrete two-line
text with non-empty stripped lines. -/
theorem c10_witness :
    (extract_section_header ('A' :: '1' :: '\n' :: 'B' :: '2' :: [])).isSome = true :=
  c10_thm.2.1 ('A' :: '1' :: '\n' :: 'B' :: '2' :: []) (by decide)

/-- The overlap text prepended to a chunk never exceeds `overlap`
characters. -/
theorem overlapPiece_length (ov : Nat) (prev : Str) :
    (overlapPiece ov prev).length ≤ ov := by
  simp only [overlapPiece]
  have htlen : (prev.drop (prev.length - ov)).length ≤ ov := by
    rw [List.length_drop]; omega
  cases hf : (prev.drop (prev.length - ov)).findIdx? (· = ' ') with
  | none => simp only [hf]; exact htlen
  | some i =>
    simp only [hf]
    calc ((prev.drop (prev.length - ov)).drop (i + 1)).length
        ≤ (prev.drop (prev.length - ov)).length := by
          rw [List.length_drop, List.length_drop]; omega
      _ ≤ ov := htlen

/-- The overlap text prepended to a chunk is a suffix of the previous
original chunk. -/
theorem overlapPiece_isSuffix (ov : Nat) (prev : Str) :
    overlapPiece ov prev <:+ prev := by
  simp only [overlapPiece]
  cases hf : (prev.drop (prev.length - ov)).findIdx? (· = ' ') with
  | none => simp only [hf]; exact List.drop_suffix _ _
  | some i =>
    simp only [hf]
    exact (List.drop_suffix _ _).trans (List.drop_suffix _ _)

/-- Indexing a zip at a position where both lists are defined pairs the two
entries. -/
theorem zip_getElem?_some {α β : Type} :
    ∀ (l₁ : List α) (l₂ : List β) (n : Nat) (a : α) (b : β),
      l₁[n]? = some a → l₂[n]? = some b → (l₁.zip l₂)[n]? = some (a, b) := by
  intro l₁
  induction l₁ with
  | nil => intro l₂ n a b h1 _; simp at h1
  | cons x xs ih =>
    intro l₂ n a b h1 h2
    cases l₂ with
    | nil => simp at h2
    | cons y ys =>
      cases n with
      | zero =>
        simp only [List.getElem?_cons_zero, Option.some.injEq] at h1 h2
        simp [List.zip_cons_cons, h1, h2]
      | succ m =>
        simp only [List.getElem?_cons_succ] at h1 h2
        simpa [List.zip_cons_cons] using ih ys m a b h1 h2

/-- The pre-overlap chunk list of the empty text is empty. -/
theorem preChunks_nil (target : Nat) : preChunks [] target = [] := rfl

/-- Claim C4 counterexample: with text `"abcdefgh\n\nxy"`, target `9` and
overlap `3`, the overlap window of chunk 0 is `"fgh"`, which contains no
space, so no trimming happens and chunk 1 starts with `"fgh"` — a fragment
that begins mid-word in chunk 0 (it is preceded there by `e`, not by a
space), contradicting the "no partial word starts the chunk" part of the
claim. -/
theorem c4_counterexample :
    chunk_text
        ('a' :: 'b' :: 'c' :: 'd' :: 'e' :: 'f' :: 'g' :: 'h' :: '\n' :: '\n' :: 'x' :: 'y' :: [])
        9 3 =
      [('a' :: 'b' :: 'c' :: 'd' :: 'e' :: 'f' :: 'g' :: 'h' :: []),
       ('f' :: 'g' :: 'h' :: ' ' :: 'x' :: 'y' :: [])] ∧
    ('f' :: 'g' :: 'h' :: ' ' :: 'x' :: 'y' :: []) =
      ('f' :: 'g' :: 'h' :: []) ++ ' ' :: ('x' :: 'y' :: []) ∧
    ('a' :: 'b' :: 'c' :: 'd' :: 'e' :: 'f' :: 'g' :: 'h' :: []) =
      ('a' :: 'b' :: 'c' :: 'd' :: 'e' :: []) ++ ('f' :: 'g' :: 'h' :: []) ∧
    ('a' :: 'b' :: 'c' :: 'd' :: 'e' :: []).getLast? = some 'e' := by
  refine ⟨by decide, by decide, by decide, by decide⟩

/-- Claim C4 as amended: chunk 0 is returned unchanged, and for every later
chunk `i` the prepended prefix is a suffix of chunk `i-1`'s original
pre-overlap text of at most `overlap` characters, followed by a space and
chunk `i`'s original text.  (The prefix is the overlap window trimmed past
its first space when one occurs; when the window contains no space it is
kept whole and may begin mid-word.) -/
theorem c4_amended_thm :
    ∀ (text : Str) (target overlap : Nat), 0 < overlap →
      (chunk_text text target overlap).head? = (preChunks text target).head? ∧
      ∀ i : Nat, 0 < i →
        ∀ pPrev pCur : Str,
          (preChunks text target)[i-1]? = some pPrev →
          (preChunks text target)[i]? = some pCur →
          ∃ t, (chunk_text text target overlap)[i]? = some (t ++ ' ' :: pCur) ∧
            t <:+ pPrev ∧ t.length ≤ overlap := by
  intro text target overlap hov
  by_cases htext : text = []
  · subst htext
    constructor
    · rw [preChunks_nil]; rfl
    · intro i hi pPrev pCur hprev hcur
      rw [preChunks_nil] at hcur
      simp at hcur
  · have hchunk :
        chunk_text text target overlap =
          if 0 < overlap ∧ 1 < (preChunks text target).length then
            applyOverlap overlap (preChunks text target)
          else preChunks text target := by
      unfold chunk_text
      rw [if_neg htext]
    constructor
    · rw [hchunk]
      by_cases hcond : 0 < overlap ∧ 1 < (preChunks text target).length
      · rw [if_pos hcond]
        obtain ⟨c0, rest, hpre⟩ :
            ∃ c0 rest, preChunks text target = c0 :: rest := by
          cases hp : preChunks text target with
          | nil => rw [hp] at hcond; simp at hcond
          | cons c0 rest => exact ⟨c0, rest, rfl⟩
        rw [hpre]
        rfl
      · rw [if_neg hcond]
    · intro i hi pPrev pCur hprev hcur
      obtain ⟨j, rfl⟩ : ∃ j, i = j + 1 := ⟨i - 1, by omega⟩
      have hlen : j + 1 < (preChunks text target).length := by
        by_contra hcon
        rw [List.getElem?_eq_none_iff.mpr (by omega)] at hcur
        exact Option.noConfusion hcur
      obtain ⟨c0, rest, hpre⟩ :
          ∃ c0 rest, preChunks text target = c0 :: rest := by
        cases hp : preChunks text target with
        | nil => rw [hp] at hlen; simp at hlen
        | cons c0 rest => exact ⟨c0, rest, rfl⟩
      rw [hchunk, if_pos ⟨hov, by omega⟩, hpre]
      refine ⟨overlapPiece overlap pPrev, ?_, overlapPiece_isSuffix _ _,
        overlapPiece_length _ _⟩
      have hrest : rest[j]? = some pCur := by
        rw [hpre, List.getElem?_cons_succ] at hcur
        exact hcur
      have hpre' : (c0 :: rest)[j]? = some pPrev := by
        rw [hpre] at hprev
        simpa using hprev
      unfold applyOverlap
      rw [List.getElem?_cons_succ, List.getElem?_map,
        zip_getElem?_some rest (c0 :: rest) j pCur pPrev hrest hpre']
      rfl

/-- Witness for C4: the amended theorem applied to the text
`"aa bb\n\ncc"` with target `7` and overlap `3`, where chunk 1 is `"bb cc"`
and the prepended `"bb"` is a word-bounded suffix of chunk 0. -/
theorem c4_witness :
    ∃ t, (chunk_text ('a' :: 'a' :: ' ' :: 'b' :: 'b' :: '\n' :: '\n' :: 'c' :: 'c' :: []) 7 3)[1]? =
        some (t ++ ' ' :: ('c' :: 'c' :: [])) ∧
      t <:+ ('a' :: 'a' :: ' ' :: 'b' :: 'b' :: []) ∧ t.length ≤ 3 :=
  (c4_amended_thm ('a' :: 'a' :: ' ' :: 'b' :: 'b' :: '\n' :: '\n' :: 'c' :: 'c' :: []) 7 3
      (by decide)).2 1 (by decide)
    ('a' :: 'a' :: ' ' :: 'b' :: 'b' :: []) ('c' :: 'c' :: []) (by decide) (by decide)

/-- The `". "` split always returns a first piece, and that piece is a
prefix of the input. -/
theorem splitDotSpace_head :
    ∀ s : Str, ∃ hd tl, splitDotSpace s = hd :: tl ∧ hd <+: s := by
  intro s
  induction s using splitDotSpace.induct with
  | case1 rest ih =>
    exact ⟨[], splitDotSpace rest, splitDotSpace.eq_1 rest, List.nil_prefix⟩
  | case2 c rest h ih =>
    obtain ⟨hd, tl, heq, hpref⟩ := ih
    refine ⟨c :: hd, tl, ?_, List.cons_prefix_cons.mpr ⟨rfl, hpref⟩⟩
    rw [splitDotSpace.eq_2 _ _ h, heq]
    rfl
  | case3 => exact ⟨[], [], rfl, List.nil_prefix⟩

/-- No piece produced by the `". "` split contains the separator. -/
theorem splitDotSpace_pieces :
    ∀ s : Str, ∀ c ∈ splitDotSpace s, ¬ dotSpace <:+: c := by
  intro s
  induction s using splitDotSpace.induct with
  | case1 rest ih =>
    intro c hc
    rw [splitDotSpace.eq_1] at hc
    rcases List.mem_cons.mp hc with h1 | h1
    · subst h1
      intro hinf
      have := hinf.length_le
      simp [dotSpace] at this
    · exact ih c h1
  | case2 x rest h ih =>
    intro c hc
    rw [splitDotSpace.eq_2 _ _ h] at hc
    obtain ⟨hd, tl, heq, hpref⟩ := splitDotSpace_head rest
    rw [heq] at hc
    simp only [consHead] at hc
    rcases List.mem_cons.mp hc with h1 | h1
    · subst h1
      intro hinf
      rcases List.infix_cons_iff.mp hinf with h2 | h2
      · rcases List.cons_prefix_cons.mp h2 with ⟨hx, h3⟩
        obtain ⟨t2, ht2⟩ := h3.trans hpref
        exact h t2 hx.symm ht2.symm
      · exact ih hd (by rw [heq]; simp) h2
    · exact ih c (by rw [heq]; simp [h1])
  | case3 =>
    intro c hc
    rcases List.mem_singleton.mp hc with rfl
    intro hinf
    have := hinf.length_le
    simp [dotSpace] at this

/-- Every chunk produced by the merge loop of `split_text` on `". "`-free
pieces either respects the target size or is a single piece with the
separator re-attached. -/
theorem mergeSplits_mem (target : Nat) :
    ∀ (splits : List Str) (cur : Str),
      (∀ s ∈ splits, ¬ dotSpace <:+: s) →
      (cur = [] ∨ cur.length ≤ target ∨ SentencePiece cur) →
      ∀ c ∈ mergeSplits target dotSpace splits cur,
        c.length ≤ target ∨ SentencePiece c := by
  intro splits
  induction splits with
  | nil =>
    intro cur hs hcur c hc
    unfold mergeSplits at hc
    by_cases hnil : cur = []
    · rw [if_pos hnil] at hc
      simp at hc
    · rw [if_neg hnil] at hc
      rcases List.mem_singleton.mp hc with rfl
      rcases hcur with h | h | h
      · exact absurd h hnil
      · exact Or.inl h
      · exact Or.inr h
  | cons s rest ih =>
    intro cur hs hcur c hc
    have hsrest : ∀ x ∈ rest, ¬ dotSpace <:+: x := fun x hx => hs x (by simp [hx])
    have hsp : SentencePiece (s ++ dotSpace) := ⟨s, rfl, hs s (by simp)⟩
    simp only [mergeSplits] at hc
    by_cases hfit : cur.length + (s ++ dotSpace).length ≤ target
    · rw [if_pos hfit] at hc
      refine ih (cur ++ (s ++ dotSpace)) hsrest (Or.inr (Or.inl ?_)) c hc
      simp only [List.length_append] at hfit ⊢
      omega
    · rw [if_neg hfit] at hc
      by_cases hnil : cur = []
      · rw [if_pos hnil] at hc
        exact ih (s ++ dotSpace) hsrest (Or.inr (Or.inr hsp)) c hc
      · rw [if_neg hnil] at hc
        rcases List.mem_cons.mp hc with h1 | h1
        · subst h1
          rcases hcur with h | h | h
          · exact absurd h hnil
          · exact Or.inl h
          · exact Or.inr h
        · exact ih (s ++ dotSpace) hsrest (Or.inr (Or.inr hsp)) c h1

/-- Every sub-chunk produced by `split_text` respects the target size unless
it is a single `". "`-free piece with the separator re-attached. -/
theorem split_text_mem (target : Nat) (text : Str) :
    ∀ c ∈ split_text target text, c.length ≤ target ∨ SentencePiece c :=
  fun c hc =>
    mergeSplits_mem target (splitDotSpace text) [] (splitDotSpace_pieces text)
      (Or.inl rfl) c hc

/-- The last element (with default) of a list is the default or a member. -/
theorem getLastD_mem_cons {α : Type} :
    ∀ (l : List α) (d : α), l.getLastD d ∈ d :: l := by
  intro l
  induction l with
  | nil => intro d; simp [List.getLastD]
  | cons x xs ih =>
    intro d
    rw [List.getLastD_cons]
    exact List.mem_cons_of_mem d (ih x)

/-- Every pre-overlap chunk produced by the paragraph loop respects the
target size unless it is an unsplittable sentence piece. -/
theorem paraLoop_mem (target : Nat) :
    ∀ (paras : List Str) (cur : Str),
      (cur = [] ∨ cur.length ≤ target ∨ SentencePiece cur) →
      ∀ c ∈ paraLoop target paras cur, c.length ≤ target ∨ SentencePiece c := by
  intro paras
  induction paras with
  | nil =>
    intro cur hcur c hc
    unfold paraLoop at hc
    by_cases hnil : cur = []
    · rw [if_pos hnil] at hc
      simp at hc
    · rw [if_neg hnil] at hc
      rcases List.mem_singleton.mp hc with rfl
      rcases hcur with h | h | h
      · exact absurd h hnil
      · exact Or.inl h
      · exact Or.inr h
  | cons p rest ih =>
    intro cur hcur c hc
    simp only [paraLoop] at hc
    by_cases hempty : pyStrip p = []
    · rw [if_pos hempty] at hc
      exact ih cur hcur c hc
    · rw [if_neg hempty] at hc
      by_cases hfit : cur.length + (pyStrip p).length + 2 ≤ target
      · rw [if_pos hfit] at hc
        by_cases hnil : cur = []
        · rw [if_pos hnil] at hc
          refine ih (pyStrip p) (Or.inr (Or.inl ?_)) c hc
          subst hnil
          simp only [List.length_nil] at hfit
          omega
        · rw [if_neg hnil] at hc
          refine ih _ (Or.inr (Or.inl ?_)) c hc
          simp only [List.length_append, List.length_cons]
          omega
      · rw [if_neg hfit] at hc
        rcases List.mem_append.mp hc with h1 | h1
        · by_cases hnil : cur = []
          · rw [if_pos hnil] at h1
            simp at h1
          · rw [if_neg hnil] at h1
            rcases List.mem_singleton.mp h1 with rfl
            rcases hcur with h | h | h
            · exact absurd h hnil
            · exact Or.inl h
            · exact Or.inr h
        · by_cases hbig : target < (pyStrip p).length
          · rw [if_pos hbig] at h1
            rcases List.mem_append.mp h1 with h2 | h2
            · exact split_text_mem target (pyStrip p) c
                ((List.dropLast_sublist _).mem h2)
            · refine ih _ ?_ c h2
              rcases List.mem_cons.mp
                  (getLastD_mem_cons (split_text target (pyStrip p)) []) with h3 | h3
              · exact Or.inl h3
              · exact Or.inr (split_text_mem target (pyStrip p) _ h3)
          · rw [if_neg hbig] at h1
            exact ih (pyStrip p) (Or.inr (Or.inl (by omega))) c h1

/-- Each overlapped chunk after the first grows by at most `overlap + 1`
characters over the matching pre-overlap chunk. -/
theorem zipOverlap_forall₂ (ov : Nat) :
    ∀ (rest prevs : List Str), rest.length ≤ prevs.length →
      List.Forall₂ (fun o p => o.length ≤ p.length + (ov + 1))
        ((rest.zip prevs).map (fun q => overlapPiece ov q.2 ++ ' ' :: q.1)) rest := by
  intro rest
  induction rest with
  | nil => intro prevs _; simp
  | cons r rs ih =>
    intro prevs h
    cases prevs with
    | nil => simp at h
    | cons q qs =>
      rw [List.zip_cons_cons, List.map_cons]
      refine List.Forall₂.cons ?_ (ih qs (by simpa using h))
      have := overlapPiece_length ov q
      simp only [List.length_append, List.length_cons]
      omega

/-- The overlap pass changes no chunk by more than `overlap + 1` prepended
characters. -/
theorem applyOverlap_forall₂ (ov : Nat) (chunks : List Str) :
    List.Forall₂ (fun o p => o.length ≤ p.length + (ov + 1))
      (applyOverlap ov chunks) chunks := by
  cases chunks with
  | nil => simp [applyOverlap]
  | cons c rest =>
    unfold applyOverlap
    exact List.Forall₂.cons (by omega) (zipOverlap_forall₂ ov rest (c :: rest) (by simp))

/-- Claim C1 counterexample: with `target_size = 5` and `overlap = 0` the
text `"aaaa bbbb"` (one paragraph, one sentence, two words) produces the
single chunk `"aaaa bbbb. "` of length 11 > 5 that contains spaces — not a
single word — because `split_text` never recurses to the `" "` separator;
and with `target_size = 10`, `overlap = 4`, the text
`"aaa bbb.\n\nccc ddd."` produces a second chunk `"bbb. ccc ddd."` of
length 13 > 10 after overlap is prepended. -/
theorem c1_counterexample :
    chunk_text ('a' :: 'a' :: 'a' :: 'a' :: ' ' :: 'b' :: 'b' :: 'b' :: 'b' :: []) 5 0 =
      [('a' :: 'a' :: 'a' :: 'a' :: ' ' :: 'b' :: 'b' :: 'b' :: 'b' :: '.' :: ' ' :: [])] ∧
    5 < ('a' :: 'a' :: 'a' :: 'a' :: ' ' :: 'b' :: 'b' :: 'b' :: 'b' :: '.' :: ' ' :: []).length ∧
    ' ' ∈ ('a' :: 'a' :: 'a' :: 'a' :: ' ' :: 'b' :: 'b' :: 'b' :: 'b' :: '.' :: ' ' :: []) ∧
    chunk_text
        ('a' :: 'a' :: 'a' :: ' ' :: 'b' :: 'b' :: 'b' :: '.' :: '\n' :: '\n' ::
          'c' :: 'c' :: 'c' :: ' ' :: 'd' :: 'd' :: 'd' :: '.' :: []) 10 4 =
      [('a' :: 'a' :: 'a' :: ' ' :: 'b' :: 'b' :: 'b' :: '.' :: []),
       ('b' :: 'b' :: 'b' :: '.' :: ' ' :: 'c' :: 'c' :: 'c' :: ' ' :: 'd' :: 'd' :: 'd' :: '.' :: [])] ∧
    10 < ('b' :: 'b' :: 'b' :: '.' :: ' ' :: 'c' :: 'c' :: 'c' :: ' ' :: 'd' :: 'd' :: 'd' :: '.' :: []).length := by
  refine ⟨by decide, by decide, by decide, by decide, by decide⟩

/-- Claim C1 as amended: every pre-overlap chunk has length at most
`target_size` unless it is a single `". "`-free piece with the separator
re-attached (the splitter splits oversized paragraphs only on `". "` and
never recurses to word level, so such a piece can hold several words); the
overlap pass can then lengthen every chunk after the first by at most
`overlap + 1` prepended characters. -/
theorem c1_amended_thm :
    ∀ (text : Str) (target overlap : Nat),
      (∀ c ∈ preChunks text target, c.length ≤ target ∨ SentencePiece c) ∧
      List.Forall₂ (fun o p => o.length ≤ p.length + (overlap + 1))
        (chunk_text text target overlap) (preChunks text target) := by
  intro text target overlap
  refine ⟨fun c hc => paraLoop_mem target _ [] (Or.inl rfl) c hc, ?_⟩
  by_cases htext : text = []
  · subst htext
    rw [preChunks_nil]
    simp [chunk_text]
  · have hchunk :
        chunk_text text target overlap =
          if 0 < overlap ∧ 1 < (preChunks text target).length then
            applyOverlap overlap (preChunks text target)
          else preChunks text target := by
      unfold chunk_text
      rw [if_neg htext]
    rw [hchunk]
    by_cases hcond : 0 < overlap ∧ 1 < (preChunks text target).length
    · rw [if_pos hcond]
      exact applyOverlap_forall₂ overlap _
    · rw [if_neg hcond]
      rw [List.forall₂_same]
      intro x _
      omega

/-- Witness for C1: the amended theorem applied to `"aaaa bbbb"` with target
size 5 and overlap 0, whose single chunk is the oversized sentence piece
`"aaaa bbbb. "`. -/
theorem c1_witness :
    (('a' :: 'a' :: 'a' :: 'a' :: ' ' :: 'b' :: 'b' :: 'b' :: 'b' :: '.' :: ' ' :: []).length ≤ 5 ∨
      SentencePiece ('a' :: 'a' :: 'a' :: 'a' :: ' ' :: 'b' :: 'b' :: 'b' :: 'b' :: '.' :: ' ' :: [])) ∧
    List.Forall₂ (fun o p => o.length ≤ p.length + (0 + 1))
      (chunk_text ('a' :: 'a' :: 'a' :: 'a' :: ' ' :: 'b' :: 'b' :: 'b' :: 'b' :: []) 5 0)
      (preChunks ('a' :: 'a' :: 'a' :: 'a' :: ' ' :: 'b' :: 'b' :: 'b' :: 'b' :: []) 5) :=
  ⟨(c1_amended_thm ('a' :: 'a' :: 'a' :: 'a' :: ' ' :: 'b' :: 'b' :: 'b' :: 'b' :: []) 5 0).1
      ('a' :: 'a' :: 'a' :: 'a' :: ' ' :: 'b' :: 'b' :: 'b' :: 'b' :: '.' :: ' ' :: [])
      (by decide),
   (c1_amended_thm ('a' :: 'a' :: 'a' :: 'a' :: ' ' :: 'b' :: 'b' :: 'b' :: 'b' :: []) 5 0).2⟩

/-- Rounding to four decimal places is monotone. -/
theorem pyRound4_mono {x y : ℚ} (h : x ≤ y) : pyRound4 x ≤ pyRound4 y := by
  unfold pyRound4
  have hr : round (x * 10000) ≤ round (y * 10000) := by
    rw [round_eq, round_eq]
    exact Int.floor_mono (by linarith)
  have hc : ((round (x * 10000) : ℤ) : ℚ) ≤ ((round (y * 10000) : ℤ) : ℚ) := by
    exact_mod_cast hr
  gcongr

/-- The rounded similarity sequence read off consecutive positions of an
ascending distance list is descending (missing positions give similarity
`0`, which every present nonnegative-distance similarity dominates). -/
theorem similarityAt_step (dists : List ℚ) (hchain : List.Chain' (· ≤ ·) dists)
    (hpos : ∀ d ∈ dists, 0 ≤ d) (m : Nat) :
    pyRound4 (similarityAt dists (m + 1)) ≤ pyRound4 (similarityAt dists m) := by
  unfold similarityAt
  cases h1 : dists[m]? with
  | none =>
    have h2 : dists[m + 1]? = none := by
      rw [List.getElem?_eq_none_iff] at h1 ⊢
      omega
    rw [h2]
  | some d =>
    have hd : 0 ≤ d := hpos d (List.getElem?_mem h1)
    cases h2 : dists[m + 1]? with
    | none =>
      apply pyRound4_mono
      unfold querySimilarity
      positivity
    | some d2 =>
      apply pyRound4_mono
      have hm1 : m + 1 < dists.length := by
        by_contra hcon
        rw [List.getElem?_eq_none_iff.mpr (by omega)] at h2
        exact Option.noConfusion h2
      have hm : m < dists.length := by omega
      have hstep := List.chain'_iff_get.mp hchain m (by omega)
      have e1 : dists[m]? = some (dists.get ⟨m, hm⟩) := by
        rw [List.getElem?_eq_getElem hm]
        rfl
      have e2 : dists[m + 1]? = some (dists.get ⟨m + 1, hm1⟩) := by
        rw [List.getElem?_eq_getElem hm1]
        rfl
      rw [h1] at e1
      rw [h2] at e2
      injection e1 with e1
      injection e2 with e2
      have hdd : d ≤ d2 := by rw [e1, e2]; exact hstep
      unfold querySimilarity
      rw [div_le_div_iff₀ (by linarith) (by linarith)]
      linarith

/-- The rounded similarity scores indexed over any initial range form a
descending chain when the distance list is ascending and nonnegative. -/
theorem simsChain (dists : List ℚ) (hchain : List.Chain' (· ≤ ·) dists)
    (hpos : ∀ d ∈ dists, 0 ≤ d) (n : Nat) :
    List.Chain' (· ≥ ·)
      ((List.range n).map (fun i => pyRound4 (similarityAt dists i))) := by
  rw [List.chain'_map]
  cases n with
  | zero => simp
  | succ k =>
    rw [List.chain'_range_succ]
    intro m _
    exact similarityAt_step dists hchain hpos m

/-- Closed form of the retrieval loop: chunk `j` of the output is built from
document `j`, the metadata at the running index, and the rounded similarity
at the running index, with the context blocks built in the same order. -/
theorem retrieveLoop_eq (metas : List (Option String)) (dists : List ℚ) :
    ∀ (docs : List String) (i : Nat),
      retrieveLoop metas dists docs i =
        ((List.range docs.length).map (fun j =>
            { text := docs.getD j "", source := sourceAt metas (i + j),
              similarity_score := pyRound4 (similarityAt dists (i + j)) }),
         (List.range docs.length).map (fun j =>
            contextBlock (sourceAt metas (i + j)) (docs.getD j ""))) := by
  intro docs
  induction docs with
  | nil => intro i; simp [retrieveLoop]
  | cons d rest ih =>
    intro i
    simp only [retrieveLoop, ih (i + 1), List.length_cons,
      List.range_succ_eq_map, List.map_cons, List.map_map]
    rw [Prod.mk.injEq]
    constructor
    · simp only [List.cons.injEq]
      refine ⟨by simp, ?_⟩
      refine List.map_congr_left fun j hj => ?_
      have hidx : i + 1 + j = i + (j + 1) := by omega
      simp [Function.comp, hidx]
    · simp only [List.cons.injEq]
      refine ⟨by simp, ?_⟩
      refine List.map_congr_left fun j hj => ?_
      have hidx : i + 1 + j = i + (j + 1) := by omega
      simp [Function.comp, hidx]

/-- Claim C7: when retrieval returns at least one result and the store
returns distances ascending (nearest first) and nonnegative, the prompt sent
to the generation client is exactly the fixed instruction template around
the blank-line-separated concatenation of one `"Source: s\nContent: t"`
block per retrieved result in retrieval order, followed by the literal
question, and the retrieved chunk scores are in similarity-descending
order. -/
theorem c7_thm :
    ∀ (docs : List String) (metas : List (Option String)) (dists : List ℚ)
      (gen : String → String) (question : String),
      docs ≠ [] → List.Chain' (· ≤ ·) dists → (∀ d ∈ dists, 0 ≤ d) →
      process_query docs metas dists gen question =
        ({ answer := gen (build_rag_prompt (String.intercalate "\n\n"
              ((List.range docs.length).map (fun i =>
                contextBlock (sourceAt metas i) (docs.getD i "")))) question),
           retrieved_chunks := (List.range docs.length).map (fun i =>
              { text := docs.getD i "", source := sourceAt metas i,
                similarity_score := pyRound4 (similarityAt dists i) }) }, true) ∧
      List.Chain' (· ≥ ·)
        (((process_query docs metas dists gen question).1.retrieved_chunks).map
          (fun c => c.similarity_score)) := by
  intro docs metas dists gen question hne hchain hpos
  have hrc : retrieve_chunks docs metas dists =
      ((List.range docs.length).map (fun j =>
          { text := docs.getD j "", source := sourceAt metas j,
            similarity_score := pyRound4 (similarityAt dists j) }),
       (List.range docs.length).map (fun j =>
          contextBlock (sourceAt metas j) (docs.getD j ""))) := by
    unfold retrieve_chunks
    rw [retrieveLoop_eq]
    simp only [Nat.zero_add]
  have hlen : 0 < docs.length := List.length_pos.mpr hne
  have hctx : (List.range docs.length).map (fun j =>
      contextBlock (sourceAt metas j) (docs.getD j "")) ≠ [] := by
    simp only [ne_eq, List.map_eq_nil_iff, List.range_eq_nil]
    omega
  have heq : process_query docs metas dists gen question =
      ({ answer := gen (build_rag_prompt (String.intercalate "\n\n"
            ((List.range docs.length).map (fun i =>
              contextBlock (sourceAt metas i) (docs.getD i "")))) question),
         retrieved_chunks := (List.range docs.length).map (fun i =>
            { text := docs.getD i "", source := sourceAt metas i,
              similarity_score := pyRound4 (similarityAt dists i) }) }, true) := by
    unfold process_query
    rw [hrc]
    rw [if_neg hctx]
  refine ⟨heq, ?_⟩
  rw [heq]
  simp only [List.map_map]
  have hcomp : ((fun c : RetrievalChunk => c.similarity_score) ∘ (fun i =>
      ({ text := docs.getD i "", source := sourceAt metas i,
         similarity_score := pyRound4 (similarityAt dists i) } : RetrievalChunk))) =
      fun i => pyRound4 (similarityAt dists i) := rfl
  rw [hcomp]
  exact simsChain dists hchain hpos docs.length

/-- Witness for C7: the theorem applied to two concrete documents with
distances `[0, 1]`, yielding similarities `1` and `0.5` in descending order
and the fully assembled prompt. -/
theorem c7_witness :
    process_query ["alpha", "beta"] [some "a.txt"] [0, 1] (fun s => s) "Q?" =
      ({ answer := (fun s => s) (build_rag_prompt (String.intercalate "\n\n"
            ((List.range (["alpha", "beta"] : List String).length).map (fun i =>
              contextBlock (sourceAt [some "a.txt"] i)
                ((["alpha", "beta"] : List String).getD i "")))) "Q?"),
         retrieved_chunks := (List.range (["alpha", "beta"] : List String).length).map (fun i =>
            { text := (["alpha", "beta"] : List String).getD i "",
              source := sourceAt [some "a.txt"] i,
              similarity_score := pyRound4 (similarityAt [0, 1] i) }) }, true) ∧
    List.Chain' (· ≥ ·)
      (((process_query ["alpha", "beta"] [some "a.txt"] [0, 1] (fun s => s) "Q?").1.retrieved_chunks).map
        (fun c => c.similarity_score)) :=
  c7_thm ["alpha", "beta"] [some "a.txt"] [0, 1] (fun s => s) "Q?"
    (by decide) (by norm_num [List.chain'_cons]) (by decide)

end Ragbot
